import Mathlib

/-
Shallow embedding of the core of src/main.py (a pygame Fourier-epicycle
drawing program).  Pixel coordinates and times are modelled as real
numbers, complex samples and Fourier coefficients as elements of ℂ;
the rendering side effects (pygame drawing calls) are dropped, keeping
only the state that the drawing functions read and write.
-/

noncomputable section

namespace Main

/-- WIDTH constant (src/main.py line 12). -/
def WIDTH : ℝ := 800

/-- HEIGHT constant (src/main.py line 13). -/
def HEIGHT : ℝ := 600

/-- DEFAULT_SPEED constant (src/main.py line 15). -/
def DEFAULT_SPEED : ℝ := 1.0

/-- SPEED_INCREMENT constant (src/main.py line 16). -/
def SPEED_INCREMENT : ℝ := 0.1

/-- DrawPoint (src/main.py lines 31-34): a recorded position with its timestamp. -/
structure DrawPoint where
  pos : ℝ × ℝ
  timestamp : ℝ

/-- The state tag of a Path (src/main.py line 42): the string constants
"drawing", "animating", "complete" become an inductive type. -/
inductive PathState where
  | drawing
  | animating
  | complete
deriving DecidableEq

/-- Path (src/main.py lines 36-43): one traced curve with its Fourier data,
animated trace, state tag and animation time. -/
structure Path where
  raw_points : List DrawPoint
  epicycles : List (ℤ × ℂ)
  animation_points : List (ℝ × ℝ)
  display_index : ℕ
  state : PathState
  time : ℝ

/-- Path.__init__ (src/main.py lines 37-43). -/
def Path.new : Path := ⟨[], [], [], 0, PathState.drawing, 0⟩

/-- Path.add_point (src/main.py lines 45-47). -/
def Path.add_point (p : Path) (pos : ℝ × ℝ) (timestamp : ℝ) : Path :=
  { p with raw_points := p.raw_points ++ [⟨pos, timestamp⟩] }

/-- Conversion of raw points to centered complex samples
(src/main.py line 54): complex(x - WIDTH/2, y - HEIGHT/2). -/
def complex_points (pts : List DrawPoint) : List ℂ :=
  pts.map (fun p => ⟨p.pos.1 - WIDTH / 2, p.pos.2 - HEIGHT / 2⟩)

/-- Python `range(lo, hi)` on integers (floor semantics are irrelevant here,
the arguments are already integers). -/
def intRange (lo hi : ℤ) : List ℤ :=
  (List.range (hi - lo).toNat).map (fun (j : ℕ) => lo + (j : ℤ))

/-- The loop header `for n in range(-N//2, N//2)` (src/main.py line 59).
Python `//` is floor division and unary minus binds tighter, so
`-N//2 = (-N)//2 = Int.fdiv (-N) 2`. -/
def fourierIndices (N : ℕ) : List ℤ :=
  intRange (Int.fdiv (-(N : ℤ)) 2) (Int.fdiv (N : ℤ) 2)

/-- The inner loop of calculate_fourier (src/main.py lines 60-63): the
sum over k = 0,…,N−1 of sample(k)·exp(−2πi·n·k/N), divided by N at the end.
The sum is taken over `List.range`, in ascending k order as in the source. -/
def coefficient (s : List ℂ) (n : ℤ) : ℂ :=
  ((List.range s.length).map
    (fun k => s.getD k 0 *
      Complex.exp (-2 * (Real.pi : ℂ) * Complex.I * (n : ℂ) * (k : ℂ) / (s.length : ℂ)))).sum
    / (s.length : ℂ)

/-- The full unfiltered table of DFT coefficients the loop of
calculate_fourier computes: one (n, c(n)) pair per index n of the loop
header, in loop order. -/
def rawCoefficients (s : List ℂ) : List (ℤ × ℂ) :=
  (fourierIndices s.length).map (fun n => (n, coefficient s n))

/-- The filter `if abs(c) > 1: self.epicycles.append((n, c))`
(src/main.py lines 64-65), applied to the raw coefficient pairs. -/
def filterCoefficients (l : List (ℤ × ℂ)) : List (ℤ × ℂ) :=
  l.filter (fun x => decide (1 < Complex.abs x.2))

/-- One insertion step of a stable descending-by-magnitude sort: the new
element goes in front of the first element whose magnitude is not larger.
Elements equal in magnitude that were earlier in the input stay earlier. -/
def insertDesc (a : ℤ × ℂ) : List (ℤ × ℂ) → List (ℤ × ℂ)
  | [] => [a]
  | b :: l => if Complex.abs b.2 ≤ Complex.abs a.2 then a :: b :: l else b :: insertDesc a l

/-- `self.epicycles.sort(key=lambda x: abs(x[1]), reverse=True)`
(src/main.py line 67).  Python's list.sort is a stable sort; with
reverse=True it orders by descending key and keeps the input order of
elements with equal keys.  Modelled as a stable insertion sort. -/
def sortDesc (l : List (ℤ × ℂ)) : List (ℤ × ℂ) := l.foldr insertDesc []

/-- The epicycle list calculate_fourier stores (src/main.py lines 58-67):
the raw coefficients of the centered samples, filtered by magnitude > 1,
stably sorted by descending magnitude. -/
def fourierOf (pts : List DrawPoint) : List (ℤ × ℂ) :=
  sortDesc (filterCoefficients (rawCoefficients (complex_points pts)))

/-- Path.calculate_fourier (src/main.py lines 49-67).  With fewer than 2
raw points it returns early and leaves the stored epicycles unchanged. -/
def Path.calculate_fourier (p : Path) : Path :=
  if p.raw_points.length < 2 then p
  else { p with epicycles := fourierOf p.raw_points }

/-- One step of the epicycle chain (src/main.py lines 72-76 and 84-91):
advance the running position by (|c|·cos a, |c|·sin a) with
a = 2π·n·t + arg(c). -/
def epicycleStep (t : ℝ) (pos : ℝ × ℝ) (nc : ℤ × ℂ) : ℝ × ℝ :=
  (pos.1 + Complex.abs nc.2 * Real.cos (2 * Real.pi * (nc.1 : ℝ) * t + Complex.arg nc.2),
   pos.2 + Complex.abs nc.2 * Real.sin (2 * Real.pi * (nc.1 : ℝ) * t + Complex.arg nc.2))

/-- Path.calculate_point (src/main.py lines 69-78): fold the epicycle steps
starting from the canvas center (WIDTH/2, HEIGHT/2). -/
def calculate_point (epicycles : List (ℤ × ℂ)) (t : ℝ) : ℝ × ℝ :=
  epicycles.foldl (epicycleStep t) (WIDTH / 2, HEIGHT / 2)

/-- Path.draw_epicycles (src/main.py lines 80-96), kept as the value it
returns: the final center of the chain.  The pygame circle/line calls are
render-only side effects and are dropped. -/
def draw_epicycles (epicycles : List (ℤ × ℂ)) (t : ℝ) : ℝ × ℝ :=
  epicycles.foldl (epicycleStep t) (WIDTH / 2, HEIGHT / 2)

/-- Path.animate (src/main.py lines 98-111): while animating, append the
chain tip at the current time to the animated trace, then advance the time
by (1/len(raw_points))·speed; when the advanced time reaches 1 the time is
reset to 0 and the state becomes complete. -/
def Path.animate (p : Path) (speed : ℝ) : Path :=
  if p.state = PathState.animating then
    let pts := p.animation_points ++ [draw_epicycles p.epicycles p.time]
    let t := p.time + 1 / (p.raw_points.length : ℝ) * speed
    if 1 ≤ t then
      { p with animation_points := pts, time := 0, state := PathState.complete }
    else
      { p with animation_points := pts, time := t }
  else p

/-- Path.complete_animation (src/main.py lines 123-126). -/
def Path.complete_animation (p : Path) : Path :=
  if p.state = PathState.animating then { p with state := PathState.complete } else p

/-- Iterated animation frames for a single path: `animateFrames speed n p`
is p after n calls of Path.animate with the given speed. -/
def animateFrames (speed : ℝ) : ℕ → Path → Path
  | 0, p => p
  | n + 1, p => animateFrames speed n (p.animate speed)

/-- FourierDrawing (src/main.py lines 128-138): the multi-path orchestrator
state.  remaining_paths is created dynamically by the SPACE handler in the
source; it is modelled as a field that is empty until that handler runs. -/
structure FourierDrawing where
  paths : List Path
  current_path : Option Path
  show_help : Bool
  animating_all : Bool
  current_animation_index : ℕ
  animation_speed : ℝ
  completed_paths : List Path
  show_original : Bool
  remaining_paths : List Path

/-- FourierDrawing.__init__ (src/main.py lines 129-138). -/
def FourierDrawing.new : FourierDrawing :=
  ⟨[], none, false, false, 0, DEFAULT_SPEED, [], false, []⟩

/-- FourierDrawing.start_new_path (src/main.py lines 140-145). -/
def FourierDrawing.start_new_path (d : FourierDrawing) (clear_existing : Bool) :
    FourierDrawing :=
  let d1 := if clear_existing then
    { d with paths := [], completed_paths := [], animating_all := false }
  else d
  { d1 with current_path := some Path.new }

/-- FourierDrawing.complete_all_animations (src/main.py lines 147-156):
complete every animating stored path; during replay-all, also complete the
queued paths and drain them into the active collection. -/
def FourierDrawing.complete_all_animations (d : FourierDrawing) : FourierDrawing :=
  let d1 := { d with paths := d.paths.map Path.complete_animation }
  if d1.animating_all then
    { d1 with paths := d1.paths ++ d1.remaining_paths.map Path.complete_animation,
              remaining_paths := [], animating_all := false }
  else d1

/-- FourierDrawing.finish_current_path (src/main.py lines 158-163). -/
def FourierDrawing.finish_current_path (d : FourierDrawing) : FourierDrawing :=
  match d.current_path with
  | some p =>
    if 1 < p.raw_points.length then
      { d with
          paths := d.paths ++ [{ p.calculate_fourier with state := PathState.animating }],
          current_path := none }
    else { d with current_path := none }
  | none => { d with current_path := none }

/-- The reset applied to a path when (re)starting its animation
(src/main.py lines 247-249 and 309-311): time 0, empty trace, animating. -/
def resetForAnimation (p : Path) : Path :=
  { p with time := 0, animation_points := [], state := PathState.animating }

/-- The SPACE key handler (src/main.py lines 243-253): snapshot the stored
paths, restart the first from time 0 and queue the rest for sequential
playback.  With no stored paths the handler does nothing. -/
def replay_all (d : FourierDrawing) : FourierDrawing :=
  match d.paths with
  | [] => d
  | p0 :: rest =>
    { d with paths := [resetForAnimation p0], completed_paths := [],
             animating_all := true, current_animation_index := 0,
             remaining_paths := rest }

/-- The MOUSEWHEEL handler (src/main.py lines 272-273):
speed := min(1.0, max(0.1, speed + y * SPEED_INCREMENT)). -/
def adjust_speed (s : ℝ) (y : ℤ) : ℝ :=
  min 1.0 (max 0.1 (s + (y : ℝ) * SPEED_INCREMENT))

/-- The per-frame animation pass over the stored paths
(src/main.py lines 295-299).  Path.animate itself is a no-op on paths that
are not animating, exactly like the dispatch in the source. -/
def animatePhase (d : FourierDrawing) : FourierDrawing :=
  { d with paths := d.paths.map (fun p => p.animate d.animation_speed) }

/-- The sequential-animation handler (src/main.py lines 301-316): when the
path at the head of the active collection has completed, move it to the
completed collection and start the next queued path, or end replay mode and
swap the completed collection back in. -/
def sequentialPhase (d : FourierDrawing) : FourierDrawing :=
  if d.animating_all then
    match d.paths with
    | [] => d
    | current :: _ =>
      if current.state = PathState.complete then
        match d.remaining_paths with
        | next :: rest =>
          { d with completed_paths := d.completed_paths ++ [current],
                   paths := [resetForAnimation next], remaining_paths := rest }
        | [] =>
          { d with completed_paths := [], paths := d.completed_paths ++ [current],
                   animating_all := false }
      else d
  else d

/-- One frame of the main loop (src/main.py lines 283-316) restricted to the
state-mutating part relevant during replay: the animation pass followed by
the sequential-animation handler. -/
def tick (d : FourierDrawing) : FourierDrawing := sequentialPhase (animatePhase d)

/-- The data of a path that identifies it across animation resets: its
recorded points and its Fourier coefficients. -/
def Path.core (p : Path) : List DrawPoint × List (ℤ × ℂ) := (p.raw_points, p.epicycles)

/-- Exactly one path is animating: replay mode is on, the active collection
is a single animating path, and no queued or completed path is animating. -/
def oneAnimating (d : FourierDrawing) : Prop :=
  d.animating_all = true ∧
  (∃ q, d.paths = [q] ∧ q.state = PathState.animating) ∧
  (∀ r ∈ d.remaining_paths, r.state ≠ PathState.animating) ∧
  (∀ r ∈ d.completed_paths, r.state ≠ PathState.animating)

/-- The ordering the spec asks of the stored coefficient list: strictly
descending magnitude, with exactly equal magnitudes ordered by ascending
frequency index. -/
def coeffOrder (a b : ℤ × ℂ) : Prop :=
  Complex.abs b.2 < Complex.abs a.2 ∨ (Complex.abs a.2 = Complex.abs b.2 ∧ a.1 < b.1)

/-- Modelled from the spec: the frequency-index range the spec claims,
the integers from −⌊N/2⌋ to ⌊N/2⌋−1. -/
def specIndices (N : ℕ) : List ℤ :=
  intRange (-((N / 2 : ℕ) : ℤ)) ((N / 2 : ℕ) : ℤ)

/-- Modelled from the spec: c(n) = (1/N) · Σ_{k=0}^{N−1} sample(k) · exp(−2πi·n·k/N). -/
def specCoefficient (s : List ℂ) (n : ℤ) : ℂ :=
  (1 / (s.length : ℂ)) * ∑ k in Finset.range s.length,
    s.getD k 0 * Complex.exp (-2 * (Real.pi : ℂ) * Complex.I * (n : ℂ) * (k : ℂ) / (s.length : ℂ))

/-- Modelled from the spec: the reconstructed composite point as the canvas
center plus the sum of the per-coefficient displacement vectors. -/
def specReconstruct (eps : List (ℤ × ℂ)) (t : ℝ) : ℝ × ℝ :=
  (WIDTH / 2 +
    (eps.map (fun nc => Complex.abs nc.2 *
      Real.cos (2 * Real.pi * (nc.1 : ℝ) * t + Complex.arg nc.2))).sum,
   HEIGHT / 2 +
    (eps.map (fun nc => Complex.abs nc.2 *
      Real.sin (2 * Real.pi * (nc.1 : ℝ) * t + Complex.arg nc.2))).sum)

/-- A concrete three-point trace used as input in concrete instantiations. -/
def pts3 : List DrawPoint := [⟨(0, 0), 0⟩, ⟨(100, 0), 1⟩, ⟨(200, 100), 2⟩]

/-- A concrete path with 10 raw points, fresh at the start of its animation. -/
def wPath10 : Path :=
  ⟨List.replicate 10 ⟨(0, 0), 0⟩, [], [], 0, PathState.animating, 0⟩

/-- A concrete completed path with two raw points and a nonempty trace. -/
def wPathDone : Path :=
  ⟨[⟨(0, 0), 0⟩, ⟨(10, 10), 1⟩], [], [(400, 300)], 0, PathState.complete, 0⟩

/-- A concrete orchestrator state holding one completed path. -/
def wDrawing : FourierDrawing :=
  ⟨[wPathDone], none, false, false, 0, 1, [], false, []⟩

/-- A concrete animating path with a nonempty trace. -/
def wPathAnim : Path :=
  ⟨[⟨(0, 0), 0⟩, ⟨(10, 10), 1⟩], [], [(400, 300)], 0, PathState.animating, 1 / 2⟩

/-- A concrete orchestrator state with one animating path. -/
def wDrawingAnim : FourierDrawing :=
  ⟨[wPathAnim], none, false, false, 0, 1, [], false, []⟩

/-- A concrete recording with a single point. -/
def wPathOne : Path := ⟨[⟨(0, 0), 0⟩], [], [], 0, PathState.drawing, 0⟩

/-- A concrete recording with two points. -/
def wPathTwo : Path := ⟨[⟨(0, 0), 0⟩, ⟨(10, 0), 1⟩], [], [], 0, PathState.drawing, 0⟩

/-- A concrete orchestrator state whose current recording has one point. -/
def wDrawingRec1 : FourierDrawing :=
  ⟨[], some wPathOne, false, false, 0, 1, [], false, []⟩

/-- A concrete orchestrator state whose current recording has two points. -/
def wDrawingRec2 : FourierDrawing :=
  ⟨[], some wPathTwo, false, false, 0, 1, [], false, []⟩

/-! Helper lemmas -/

theorem complete_animation_trace (p : Path) :
    p.complete_animation.animation_points = p.animation_points := by
  unfold Path.complete_animation; split <;> rfl

theorem complete_animation_state (p : Path)
    (h : p.state = PathState.animating ∨ p.state = PathState.complete) :
    p.complete_animation.state = PathState.complete := by
  unfold Path.complete_animation
  split
  · rfl
  next hne => exact h.resolve_left hne

theorem animate_of_lt {p : Path} {speed : ℝ} (hs : p.state = PathState.animating)
    (h : p.time + 1 / (p.raw_points.length : ℝ) * speed < 1) :
    p.animate speed =
      { p with animation_points := p.animation_points ++ [draw_epicycles p.epicycles p.time],
               time := p.time + 1 / (p.raw_points.length : ℝ) * speed } := by
  unfold Path.animate
  rw [if_pos hs, if_neg (not_le.mpr h)]

theorem animate_of_ge {p : Path} {speed : ℝ} (hs : p.state = PathState.animating)
    (h : 1 ≤ p.time + 1 / (p.raw_points.length : ℝ) * speed) :
    p.animate speed =
      { p with animation_points := p.animation_points ++ [draw_epicycles p.epicycles p.time],
               time := 0, state := PathState.complete } := by
  unfold Path.animate
  rw [if_pos hs, if_pos h]

theorem animateFrames_succ_right (speed : ℝ) (n : ℕ) :
    ∀ p : Path, animateFrames speed (n + 1) p = (animateFrames speed n p).animate speed := by
  induction n with
  | zero => intro p; rfl
  | succ m ih =>
    intro p
    show animateFrames speed (m + 1) (p.animate speed) =
      (animateFrames speed (m + 1) p).animate speed
    rw [ih (p.animate speed)]
    rfl

theorem animateFrames_time (speed : ℝ) :
    ∀ (j : ℕ) (p : Path), p.state = PathState.animating →
      (∀ i : ℕ, i < j →
        p.time + ((i : ℝ) + 1) * (1 / (p.raw_points.length : ℝ) * speed) < 1) →
      (animateFrames speed j p).state = PathState.animating ∧
      (animateFrames speed j p).time =
        p.time + (j : ℝ) * (1 / (p.raw_points.length : ℝ) * speed) ∧
      (animateFrames speed j p).raw_points = p.raw_points ∧
      (animateFrames speed j p).epicycles = p.epicycles := by
  intro j
  induction j with
  | zero =>
    intro p hs _
    refine ⟨hs, ?_, rfl, rfl⟩
    show p.time = p.time + ((0 : ℕ) : ℝ) * (1 / (p.raw_points.length : ℝ) * speed)
    push_cast
    ring
  | succ m ih =>
    intro p hs hlt
    have h0 : p.time + 1 / (p.raw_points.length : ℝ) * speed < 1 := by
      have := hlt 0 (Nat.succ_pos m)
      push_cast at this
      linarith
    have hstep := animate_of_lt hs h0
    have hrec := ih (p.animate speed) (by rw [hstep]; exact hs) ?_
    · rw [animateFrames]
      refine ⟨hrec.1, ?_, ?_, ?_⟩
      · rw [hrec.2.1, hstep]
        push_cast
        ring
      · rw [hrec.2.2.1, hstep]
      · rw [hrec.2.2.2, hstep]
    · intro i hi
      have := hlt (i + 1) (by omega)
      rw [hstep]
      push_cast at this ⊢
      linarith

/-- C10: Path.complete_animation changes only the state tag: on an animating
path it sets the state to complete and leaves every other field unchanged;
on a path in any other state it changes nothing at all. -/
theorem complete_animation_frame (p : Path) :
    (p.state = PathState.animating →
      p.complete_animation = { p with state := PathState.complete }) ∧
    (p.state ≠ PathState.animating → p.complete_animation = p) := by
  constructor <;> intro h
  · unfold Path.complete_animation; rw [if_pos h]
  · unfold Path.complete_animation; rw [if_neg h]

/-- Witness for C10 at a concrete animating path. -/
theorem complete_animation_frame_witness :
    wPathAnim.complete_animation = { wPathAnim with state := PathState.complete } :=
  (complete_animation_frame wPathAnim).1 rfl

/-- C8: ending a recording with fewer than 2 points silently drops the
attempted path (no transform, nothing appended, no error — the function is
total); with 2 or more points the path is transformed, set to animating
(the source's name for the post-recording state) and appended. -/
theorem finish_current_path_behavior (d : FourierDrawing) (p : Path)
    (h : d.current_path = some p) :
    (p.raw_points.length < 2 →
      d.finish_current_path = { d with current_path := none }) ∧
    (2 ≤ p.raw_points.length →
      d.finish_current_path =
        { d with
            paths := d.paths ++ [{ p.calculate_fourier with state := PathState.animating }],
            current_path := none }) := by
  constructor <;> intro hl
  · unfold FourierDrawing.finish_current_path
    rw [h]
    simp only [if_neg (by omega : ¬ 1 < p.raw_points.length)]
  · unfold FourierDrawing.finish_current_path
    rw [h]
    simp only [if_pos (by omega : 1 < p.raw_points.length)]

/-- Witness for C8 at concrete one-point and two-point recordings. -/
theorem finish_current_path_behavior_witness :
    wDrawingRec1.finish_current_path = { wDrawingRec1 with current_path := none } ∧
    wDrawingRec2.finish_current_path =
      { wDrawingRec2 with
          paths := wDrawingRec2.paths ++
            [{ wPathTwo.calculate_fourier with state := PathState.animating }],
          current_path := none } :=
  ⟨(finish_current_path_behavior wDrawingRec1 wPathOne rfl).1 (by decide),
   (finish_current_path_behavior wDrawingRec2 wPathTwo rfl).2 (by decide)⟩

/-! Speed clamping -/

theorem adjust_speed_mem (s : ℝ) (y : ℤ) :
    0.1 ≤ adjust_speed s y ∧ adjust_speed s y ≤ 1 := by
  unfold adjust_speed
  constructor
  · exact le_min (by norm_num) (le_max_left _ _)
  · exact le_trans (min_le_left _ _) (by norm_num)

theorem foldl_adjust_mem (ys : List ℤ) :
    ∀ s : ℝ, ys ≠ [] →
      0.1 ≤ ys.foldl adjust_speed s ∧ ys.foldl adjust_speed s ≤ 1 := by
  induction ys with
  | nil => intro s h; exact absurd rfl h
  | cons y t ih =>
    intro s _
    rw [List.foldl_cons]
    cases t with
    | nil => exact adjust_speed_mem s y
    | cons z u => exact ih (adjust_speed s y) (by simp)

/-- C9: starting from the default speed, after every wheel request the
animation speed lies in [0.1, 1.0]; a request whose target already lies in
that range is applied unchanged (clamped, never rejected). -/
theorem speed_clamp_invariant :
    (∀ (ys : List ℤ) (k : ℕ), k < ys.length →
      0.1 ≤ (ys.take (k + 1)).foldl adjust_speed DEFAULT_SPEED ∧
      (ys.take (k + 1)).foldl adjust_speed DEFAULT_SPEED ≤ 1) ∧
    (∀ (s : ℝ) (y : ℤ), 0.1 ≤ s + (y : ℝ) * SPEED_INCREMENT →
      s + (y : ℝ) * SPEED_INCREMENT ≤ 1 →
      adjust_speed s y = s + (y : ℝ) * SPEED_INCREMENT) := by
  constructor
  · intro ys k hk
    apply foldl_adjust_mem
    apply List.ne_nil_of_length_pos
    rw [List.length_take]
    omega
  · intro s y h1 h2
    unfold adjust_speed
    rw [show (1.0 : ℝ) = 1 from by norm_num, max_eq_right h1, min_eq_right h2]

/-- Witness for C9 at a concrete request sequence and a concrete in-range request. -/
theorem speed_clamp_invariant_witness :
    ((1 : ℕ) < ([3, -20] : List ℤ).length ∧
      0.1 ≤ (([3, -20] : List ℤ).take 2).foldl adjust_speed DEFAULT_SPEED ∧
      (([3, -20] : List ℤ).take 2).foldl adjust_speed DEFAULT_SPEED ≤ 1) ∧
    (0.1 ≤ (1 : ℝ) + ((-1 : ℤ) : ℝ) * SPEED_INCREMENT ∧
      (1 : ℝ) + ((-1 : ℤ) : ℝ) * SPEED_INCREMENT ≤ 1 ∧
      adjust_speed 1 (-1) = (1 : ℝ) + ((-1 : ℤ) : ℝ) * SPEED_INCREMENT) :=
  ⟨⟨by decide, speed_clamp_invariant.1 [3, -20] 1 (by decide)⟩,
   ⟨by norm_num [SPEED_INCREMENT], by norm_num [SPEED_INCREMENT],
    speed_clamp_invariant.2 1 (-1) (by norm_num [SPEED_INCREMENT])
      (by norm_num [SPEED_INCREMENT])⟩⟩

/-! The epicycle chain as center plus a sum of displacements -/

theorem foldl_epicycleStep (t : ℝ) :
    ∀ (eps : List (ℤ × ℂ)) (x y : ℝ),
      eps.foldl (epicycleStep t) (x, y) =
        (x + (eps.map (fun nc => Complex.abs nc.2 *
            Real.cos (2 * Real.pi * (nc.1 : ℝ) * t + Complex.arg nc.2))).sum,
         y + (eps.map (fun nc => Complex.abs nc.2 *
            Real.sin (2 * Real.pi * (nc.1 : ℝ) * t + Complex.arg nc.2))).sum) := by
  intro eps
  induction eps with
  | nil => intro x y; simp
  | cons a l ih =>
    intro x y
    rw [List.foldl_cons, ih, List.map_cons, List.map_cons, List.sum_cons, List.sum_cons]
    unfold epicycleStep
    refine Prod.ext ?_ ?_ <;> dsimp only <;> ring

/-- C3: the reconstructed composite point is the canvas center advanced by
(|c|·cos(2πnt + arg c), |c|·sin(2πnt + arg c)) for each coefficient in list
order; on the empty coefficient list it is exactly the canvas center, and
the computation is a pure function of (coefficients, t). -/
theorem calculate_point_law (eps : List (ℤ × ℂ)) (t : ℝ) :
    calculate_point eps t = specReconstruct eps t ∧
    calculate_point [] t = (WIDTH / 2, HEIGHT / 2) ∧
    calculate_point eps t = calculate_point eps t := by
  refine ⟨?_, rfl, rfl⟩
  unfold calculate_point specReconstruct
  exact foldl_epicycleStep t eps _ _

/-- C5: while a path is animating, each frame advances its time by exactly
(1/numberOfRawPoints)·speed, and the path becomes complete exactly when the
advanced time reaches 1; a fresh path with 10 raw points at speed 1 is
complete after exactly 10 frames (still animating after 9). -/
theorem animate_time_advance :
    (∀ (p : Path) (speed : ℝ), p.state = PathState.animating →
      (p.time + 1 / (p.raw_points.length : ℝ) * speed < 1 →
        (p.animate speed).state = PathState.animating ∧
        (p.animate speed).time = p.time + 1 / (p.raw_points.length : ℝ) * speed) ∧
      (1 ≤ p.time + 1 / (p.raw_points.length : ℝ) * speed →
        (p.animate speed).state = PathState.complete)) ∧
    (∀ p : Path, p.state = PathState.animating → p.time = 0 →
      p.raw_points.length = 10 →
      (animateFrames 1 10 p).state = PathState.complete ∧
      (animateFrames 1 9 p).state = PathState.animating) := by
  constructor
  · intro p speed hs
    constructor
    · intro h; rw [animate_of_lt hs h]; exact ⟨hs, rfl⟩
    · intro h; rw [animate_of_ge hs h]
  · intro p hs ht hlen
    have hside : ∀ i : ℕ, i < 9 →
        p.time + ((i : ℝ) + 1) * (1 / (p.raw_points.length : ℝ) * 1) < 1 := by
      intro i hi
      rw [hlen, ht]
      have hc : (i : ℝ) ≤ 8 := by exact_mod_cast Nat.lt_succ_iff.mp hi
      push_cast
      nlinarith
    have h9 := animateFrames_time 1 9 p hs hside
    have hge : 1 ≤ (animateFrames 1 9 p).time +
        1 / ((animateFrames 1 9 p).raw_points.length : ℝ) * 1 := by
      rw [h9.2.1, h9.2.2.1, hlen, ht]
      norm_num
    refine ⟨?_, h9.1⟩
    rw [animateFrames_succ_right, animate_of_ge h9.1 hge]

/-- Witness for C5 at a concrete fresh 10-point path. -/
theorem animate_time_advance_witness :
    (animateFrames 1 10 wPath10).state = PathState.complete ∧
    (animateFrames 1 9 wPath10).state = PathState.animating :=
  animate_time_advance.2 wPath10 rfl rfl (by simp [wPath10])

/-! Stable descending sort: permutation and ordering -/

theorem coeffOrder_abs_le {a b : ℤ × ℂ} (h : coeffOrder a b) :
    Complex.abs b.2 ≤ Complex.abs a.2 := by
  rcases h with h | ⟨h, _⟩
  · exact le_of_lt h
  · exact le_of_eq h.symm

theorem insertDesc_perm (a : ℤ × ℂ) (l : List (ℤ × ℂ)) :
    (insertDesc a l).Perm (a :: l) := by
  induction l with
  | nil => exact List.Perm.refl _
  | cons b t ih =>
    rw [insertDesc]
    split
    · exact List.Perm.refl _
    · exact (ih.cons b).trans (List.Perm.swap a b t)

theorem sortDesc_perm (l : List (ℤ × ℂ)) : (sortDesc l).Perm l := by
  induction l with
  | nil => exact List.Perm.refl _
  | cons a t ih => exact (insertDesc_perm a (sortDesc t)).trans (ih.cons a)

theorem insertDesc_pairwise (a : ℤ × ℂ) (l : List (ℤ × ℂ))
    (hl : l.Pairwise coeffOrder) (hidx : ∀ b ∈ l, a.1 < b.1) :
    (insertDesc a l).Pairwise coeffOrder := by
  induction l with
  | nil => simp [insertDesc]
  | cons b t ih =>
    rcases List.pairwise_cons.mp hl with ⟨hb, ht⟩
    rw [insertDesc]
    split
    next hab =>
      refine List.pairwise_cons.mpr ⟨?_, hl⟩
      intro c hc
      have habs : Complex.abs c.2 ≤ Complex.abs a.2 := by
        rcases List.mem_cons.mp hc with rfl | hc'
        · exact hab
        · exact le_trans (coeffOrder_abs_le (hb c hc')) hab
      rcases lt_or_eq_of_le habs with hlt | heq
      · exact Or.inl hlt
      · exact Or.inr ⟨heq.symm, hidx c hc⟩
    next hab =>
      refine List.pairwise_cons.mpr
        ⟨?_, ih ht (fun c hc => hidx c (List.mem_cons_of_mem _ hc))⟩
      intro c hc
      rcases List.mem_cons.mp ((insertDesc_perm a t).mem_iff.mp hc) with rfl | hc'
      · exact Or.inl (lt_of_not_le hab)
      · exact hb c hc'

theorem sortDesc_pairwise (l : List (ℤ × ℂ))
    (h : l.Pairwise (fun a b => a.1 < b.1)) :
    (sortDesc l).Pairwise coeffOrder := by
  induction l with
  | nil => simp [sortDesc]
  | cons a t ih =>
    rcases List.pairwise_cons.mp h with ⟨ha, ht⟩
    show (insertDesc a (sortDesc t)).Pairwise coeffOrder
    refine insertDesc_pairwise a (sortDesc t) (ih ht) ?_
    intro b hb
    exact ha b ((sortDesc_perm t).subset hb)

theorem fourierIndices_pairwise (N : ℕ) : (fourierIndices N).Pairwise (· < ·) := by
  unfold fourierIndices intRange
  refine List.Pairwise.map _ ?_ (List.pairwise_lt_range _)
  intro a b h
  omega

theorem rawCoefficients_fst_pairwise (s : List ℂ) :
    (rawCoefficients s).Pairwise (fun a b => a.1 < b.1) := by
  unfold rawCoefficients
  rw [List.pairwise_map]
  exact (fourierIndices_pairwise _).imp (fun h => h)

/-- C2: the stored coefficient list is exactly the raw pairs of magnitude
above 1, ordered by descending magnitude with exactly equal magnitudes
ordered by ascending frequency index (the raw pairs are produced in
ascending index order and the sort is stable). -/
theorem epicycles_filter_sort (pts : List DrawPoint) :
    (fourierOf pts).Perm
      ((rawCoefficients (complex_points pts)).filter
        (fun x => decide (1 < Complex.abs x.2))) ∧
    (∀ x, x ∈ fourierOf pts ↔
      (x ∈ rawCoefficients (complex_points pts) ∧ 1 < Complex.abs x.2)) ∧
    (fourierOf pts).Pairwise coeffOrder := by
  refine ⟨sortDesc_perm _, ?_,
    sortDesc_pairwise _ (List.Pairwise.filter _ (rawCoefficients_fst_pairwise _))⟩
  intro x
  rw [show fourierOf pts = sortDesc (filterCoefficients (rawCoefficients (complex_points pts))) from rfl,
    (sortDesc_perm _).mem_iff]
  unfold filterCoefficients
  rw [List.mem_filter]
  simp

/-- C7: force-complete immediately puts every active path, the queued replay
paths included, into the complete state, leaving every animated trace
untouched (so each stays non-empty and keeps its last computed composite
point; nothing is re-evaluated at t = 1), emptying the replay queue and
ending replay mode. -/
theorem complete_all_immediate (d : FourierDrawing)
    (hone : ∃ p ∈ d.paths, p.state = PathState.animating)
    (hstates : ∀ p ∈ d.paths ++ d.remaining_paths,
      p.state = PathState.animating ∨ p.state = PathState.complete)
    (htraces : ∀ p ∈ d.paths ++ d.remaining_paths, p.animation_points ≠ [])
    (hrem : d.animating_all = false → d.remaining_paths = []) :
    (∀ q ∈ d.complete_all_animations.paths,
      q.state = PathState.complete ∧ q.animation_points ≠ []) ∧
    d.complete_all_animations.paths.map Path.animation_points =
      (d.paths ++ d.remaining_paths).map Path.animation_points ∧
    d.complete_all_animations.remaining_paths = [] ∧
    d.complete_all_animations.animating_all = false := by
  clear hone
  have hca : ∀ l : List Path,
      (l.map Path.complete_animation).map Path.animation_points =
        l.map Path.animation_points := by
    intro l
    rw [List.map_map]
    exact List.map_congr_left (fun p _ => complete_animation_trace p)
  have hq : ∀ l : List Path,
      (∀ p ∈ l, p.state = PathState.animating ∨ p.state = PathState.complete) →
      (∀ p ∈ l, p.animation_points ≠ []) →
      ∀ q ∈ l.map Path.complete_animation,
        q.state = PathState.complete ∧ q.animation_points ≠ [] := by
    intro l h1 h2 q hqm
    rcases List.mem_map.mp hqm with ⟨p, hp, rfl⟩
    exact ⟨complete_animation_state p (h1 p hp),
      by rw [complete_animation_trace]; exact h2 p hp⟩
  unfold FourierDrawing.complete_all_animations
  dsimp only
  by_cases hall : d.animating_all
  · rw [if_pos hall]
    dsimp only
    refine ⟨?_, ?_, rfl, rfl⟩
    · intro q hqm
      rcases List.mem_append.mp hqm with hm | hm
      · exact hq d.paths (fun p hp => hstates p (List.mem_append_left _ hp))
          (fun p hp => htraces p (List.mem_append_left _ hp)) q hm
      · exact hq d.remaining_paths (fun p hp => hstates p (List.mem_append_right _ hp))
          (fun p hp => htraces p (List.mem_append_right _ hp)) q hm
    · rw [List.map_append, List.map_append, hca, hca]
  · rw [if_neg hall]
    have hr : d.remaining_paths = [] := hrem (by simpa using hall)
    dsimp only
    refine ⟨?_, ?_, hr, by simpa using hall⟩
    · intro q hqm
      exact hq d.paths (fun p hp => hstates p (List.mem_append_left _ hp))
        (fun p hp => htraces p (List.mem_append_left _ hp)) q hqm
    · rw [hr, List.append_nil, hca]

/-- Witness for C7 at a concrete state with one animating path. -/
theorem complete_all_immediate_witness :
    (∃ p ∈ wDrawingAnim.paths, p.state = PathState.animating) ∧
    ((∀ q ∈ wDrawingAnim.complete_all_animations.paths,
      q.state = PathState.complete ∧ q.animation_points ≠ []) ∧
    wDrawingAnim.complete_all_animations.paths.map Path.animation_points =
      (wDrawingAnim.paths ++ wDrawingAnim.remaining_paths).map Path.animation_points ∧
    wDrawingAnim.complete_all_animations.remaining_paths = [] ∧
    wDrawingAnim.complete_all_animations.animating_all = false) :=
  ⟨⟨wPathAnim, by simp [wDrawingAnim], rfl⟩,
   complete_all_immediate wDrawingAnim ⟨wPathAnim, by simp [wDrawingAnim], rfl⟩
     (by intro p hp
         simp only [wDrawingAnim, List.append_nil, List.mem_singleton] at hp
         subst hp
         exact Or.inl rfl)
     (by intro p hp
         simp only [wDrawingAnim, List.append_nil, List.mem_singleton] at hp
         subst hp
         simp [wPathAnim])
     (fun _ => rfl)⟩

/-! The DFT index range -/

theorem fourierIndices_eq (N : ℕ) :
    fourierIndices N = (List.range N).map (fun (j : ℕ) => Int.fdiv (-(N : ℤ)) 2 + (j : ℤ)) := by
  unfold fourierIndices intRange
  have : (Int.fdiv (N : ℤ) 2 - Int.fdiv (-(N : ℤ)) 2).toNat = N := by
    rw [Int.fdiv_eq_ediv _ (by norm_num), Int.fdiv_eq_ediv _ (by norm_num)]
    omega
  rw [this]

theorem range_map_sum (n : ℕ) (f : ℕ → ℂ) :
    ((List.range n).map f).sum = ∑ i in Finset.range n, f i := by
  induction n with
  | zero => simp
  | succ m ih =>
    rw [List.range_succ, Finset.sum_range_succ, List.map_append, List.sum_append, ih]
    simp

theorem coefficient_eq_spec (s : List ℂ) (n : ℤ) :
    coefficient s n = specCoefficient s n := by
  unfold coefficient specCoefficient
  rw [range_map_sum]
  ring

/-- C1 (amended): the transform computes exactly one coefficient per integer
frequency index n over the N consecutive integers starting at (−N)//2 =
−⌈N/2⌉ (ending at ⌊N/2⌋−1), and each coefficient equals
(1/N)·Σ_{k=0}^{N−1} sample(k)·exp(−2πi·n·k/N) over the centered samples. -/
theorem rawCoefficients_characterization (pts : List DrawPoint) (h : 2 ≤ pts.length) :
    (rawCoefficients (complex_points pts)).map Prod.fst =
      (List.range pts.length).map (fun (j : ℕ) => Int.fdiv (-(pts.length : ℤ)) 2 + (j : ℤ)) ∧
    ((rawCoefficients (complex_points pts)).map Prod.fst).Nodup ∧
    (∀ x ∈ rawCoefficients (complex_points pts),
      x.2 = specCoefficient (complex_points pts) x.1) := by
  clear h
  have hfst : (rawCoefficients (complex_points pts)).map Prod.fst =
      fourierIndices (complex_points pts).length := by
    unfold rawCoefficients
    rw [List.map_map]
    exact List.map_id _
  refine ⟨?_, ?_, ?_⟩
  · rw [hfst, fourierIndices_eq]
    simp [complex_points]
  · rw [hfst]
    exact (fourierIndices_pairwise _).nodup
  · intro x hx
    rcases List.mem_map.mp hx with ⟨n, _, rfl⟩
    exact coefficient_eq_spec _ n

/-- Witness for C1's amended statement at a concrete three-point trace. -/
theorem rawCoefficients_characterization_witness :
    2 ≤ pts3.length ∧
    ((rawCoefficients (complex_points pts3)).map Prod.fst =
      (List.range pts3.length).map (fun (j : ℕ) => Int.fdiv (-(pts3.length : ℤ)) 2 + (j : ℤ)) ∧
    ((rawCoefficients (complex_points pts3)).map Prod.fst).Nodup ∧
    (∀ x ∈ rawCoefficients (complex_points pts3),
      x.2 = specCoefficient (complex_points pts3) x.1)) :=
  ⟨by decide, rawCoefficients_characterization pts3 (by decide)⟩

/-- Counterexample to C1 as stated: for a 3-point path the code computes
coefficients at the frequency indices [−2, −1, 0], not at the spec's
−⌊N/2⌋ … ⌊N/2⌋−1 = [−1, 0]. -/
theorem dft_index_range_counterexample :
    (rawCoefficients (complex_points pts3)).map Prod.fst = [-2, -1, 0] ∧
    specIndices (complex_points pts3).length = [-1, 0] ∧
    (rawCoefficients (complex_points pts3)).map Prod.fst ≠
      specIndices (complex_points pts3).length := by
  have hlen : (complex_points pts3).length = 3 := by simp [complex_points, pts3]
  have hfst : (rawCoefficients (complex_points pts3)).map Prod.fst =
      fourierIndices 3 := by
    unfold rawCoefficients
    rw [List.map_map, hlen]
    exact List.map_id _
  have h1 : fourierIndices 3 = [-2, -1, 0] := by decide
  have h2 : specIndices 3 = [-1, 0] := by decide
  rw [hfst, hlen, h1, h2]
  refine ⟨rfl, rfl, by decide⟩

/-! The round-trip law: reconstruction at the sample instants -/

theorem mul_exp_re (c : ℂ) (θ : ℝ) :
    (c * Complex.exp ((θ : ℂ) * Complex.I)).re =
      Complex.abs c * Real.cos (θ + Complex.arg c) := by
  conv_lhs => rw [← Complex.abs_mul_exp_arg_mul_I c]
  rw [mul_assoc, ← Complex.exp_add]
  have h : (Complex.arg c : ℂ) * Complex.I + (θ : ℂ) * Complex.I =
      ((θ + Complex.arg c : ℝ) : ℂ) * Complex.I := by
    push_cast
    ring
  rw [h, Complex.re_ofReal_mul, Complex.exp_ofReal_mul_I_re]

theorem mul_exp_im (c : ℂ) (θ : ℝ) :
    (c * Complex.exp ((θ : ℂ) * Complex.I)).im =
      Complex.abs c * Real.sin (θ + Complex.arg c) := by
  conv_lhs => rw [← Complex.abs_mul_exp_arg_mul_I c]
  rw [mul_assoc, ← Complex.exp_add]
  have h : (Complex.arg c : ℂ) * Complex.I + (θ : ℂ) * Complex.I =
      ((θ + Complex.arg c : ℝ) : ℂ) * Complex.I := by
    push_cast
    ring
  rw [h, Complex.im_ofReal_mul, Complex.exp_ofReal_mul_I_im]

theorem list_sum_re (l : List ℂ) : l.sum.re = (l.map Complex.re).sum := by
  induction l with
  | nil => simp
  | cons a t ih => simp [ih]

theorem list_sum_im (l : List ℂ) : l.sum.im = (l.map Complex.im).sum := by
  induction l with
  | nil => simp
  | cons a t ih => simp [ih]

theorem calculate_point_complex (eps : List (ℤ × ℂ)) (t : ℝ) :
    calculate_point eps t =
      (WIDTH / 2 + ((eps.map (fun nc => nc.2 *
          Complex.exp ((2 * Real.pi * (nc.1 : ℝ) * t : ℝ) * Complex.I))).sum).re,
       HEIGHT / 2 + ((eps.map (fun nc => nc.2 *
          Complex.exp ((2 * Real.pi * (nc.1 : ℝ) * t : ℝ) * Complex.I))).sum).im) := by
  unfold calculate_point
  rw [foldl_epicycleStep, list_sum_re, list_sum_im, List.map_map, List.map_map]
  refine Prod.ext ?_ ?_ <;> dsimp only <;> congr 1 <;>
    refine congrArg List.sum (List.map_congr_left ?_) <;> intro nc _
  · exact (mul_exp_re nc.2 (2 * Real.pi * (nc.1 : ℝ) * t)).symm
  · exact (mul_exp_im nc.2 (2 * Real.pi * (nc.1 : ℝ) * t)).symm

theorem exp_two_pi_div_zpow (N : ℕ) (m : ℤ) :
    Complex.exp (2 * (Real.pi : ℂ) * Complex.I * (m : ℂ) / (N : ℂ)) =
      Complex.exp (2 * (Real.pi : ℂ) * Complex.I / (N : ℂ)) ^ m := by
  rw [← Complex.exp_int_mul]
  congr 1
  ring

theorem root_pow_card (N : ℕ) (m : ℤ) (hN : (N : ℂ) ≠ 0) :
    (Complex.exp (2 * (Real.pi : ℂ) * Complex.I / (N : ℂ)) ^ m) ^ (N : ℕ) = 1 := by
  rw [← zpow_natCast _ N, ← zpow_mul, ← Complex.exp_int_mul]
  have h : ((m * (N : ℤ) : ℤ) : ℂ) * (2 * (Real.pi : ℂ) * Complex.I / (N : ℂ)) =
      (m : ℂ) * (2 * (Real.pi : ℂ) * Complex.I) := by
    push_cast
    field_simp
    ring
  rw [h]
  exact Complex.exp_int_mul_two_pi_mul_I m

theorem root_zpow_ne_one (N : ℕ) (m : ℤ) (hm : m ≠ 0) (habs : m.natAbs < N) :
    Complex.exp (2 * (Real.pi : ℂ) * Complex.I / (N : ℂ)) ^ m ≠ 1 := by
  have hN : 0 < N := lt_of_le_of_lt (Nat.zero_le _) habs
  have hNC : (N : ℂ) ≠ 0 := Nat.cast_ne_zero.mpr hN.ne'
  have h2pi : (2 : ℂ) * Real.pi * Complex.I ≠ 0 :=
    mul_ne_zero (mul_ne_zero (two_ne_zero)
      (Complex.ofReal_ne_zero.mpr Real.pi_ne_zero)) Complex.I_ne_zero
  rw [← Complex.exp_int_mul]
  intro hone
  rcases Complex.exp_eq_one_iff.mp hone with ⟨n, hn⟩
  have hdiv : (2 * (Real.pi : ℂ) * Complex.I / (N : ℂ)) ≠ 0 := div_ne_zero h2pi hNC
  have hn' : (m : ℂ) * (2 * (Real.pi : ℂ) * Complex.I / (N : ℂ)) =
      ((n : ℂ) * (N : ℂ)) * (2 * (Real.pi : ℂ) * Complex.I / (N : ℂ)) := by
    rw [hn]
    field_simp
    ring
  have hmc : (m : ℂ) = (n : ℂ) * (N : ℂ) := mul_right_cancel₀ hdiv hn'
  have hmn : m = n * N := by exact_mod_cast hmc
  rcases eq_or_ne n 0 with rfl | hn0
  · simp at hmn
    exact hm hmn
  · have h1 : m.natAbs = n.natAbs * N := by
      rw [hmn, Int.natAbs_mul]
      simp
    have h2 : 1 ≤ n.natAbs := Int.natAbs_pos.mpr hn0
    nlinarith [habs]

theorem root_geom_sum (N : ℕ) (hN : 0 < N) (lo m : ℤ) (habs : m.natAbs < N) :
    (∑ j in Finset.range N,
      Complex.exp (2 * (Real.pi : ℂ) * Complex.I / (N : ℂ)) ^ ((lo + (j : ℤ)) * m)) =
      if m = 0 then (N : ℂ) else 0 := by
  have hu : Complex.exp (2 * (Real.pi : ℂ) * Complex.I / (N : ℂ)) ≠ 0 :=
    Complex.exp_ne_zero _
  by_cases hm : m = 0
  · subst hm
    simp
  · rw [if_neg hm]
    have hmj : ∀ (a : ℂ) (q : ℤ) (j : ℕ), a ^ (q * (j : ℤ)) = (a ^ q) ^ j := by
      intro a q j
      rw [zpow_mul, zpow_natCast]
    have hstep : ∀ j : ℕ,
        Complex.exp (2 * (Real.pi : ℂ) * Complex.I / (N : ℂ)) ^ ((lo + (j : ℤ)) * m) =
          Complex.exp (2 * (Real.pi : ℂ) * Complex.I / (N : ℂ)) ^ (lo * m) *
            (Complex.exp (2 * (Real.pi : ℂ) * Complex.I / (N : ℂ)) ^ m) ^ j := by
      intro j
      rw [show (lo + (j : ℤ)) * m = lo * m + m * (j : ℤ) from by ring,
        zpow_add₀ hu, hmj]
    simp only [hstep]
    rw [← Finset.mul_sum, geom_sum_eq (root_zpow_ne_one N m hm habs),
      root_pow_card N m (Nat.cast_ne_zero.mpr hN.ne')]
    simp

theorem rawCoefficients_map_sum (s : List ℂ) (g : ℤ × ℂ → ℂ) :
    ((rawCoefficients s).map g).sum =
      ∑ j in Finset.range s.length,
        g (Int.fdiv (-(s.length : ℤ)) 2 + (j : ℤ),
           coefficient s (Int.fdiv (-(s.length : ℤ)) 2 + (j : ℤ))) := by
  unfold rawCoefficients
  rw [fourierIndices_eq, List.map_map, List.map_map, range_map_sum]
  rfl

theorem coefficient_zpow (s : List ℂ) (n : ℤ) :
    coefficient s n = (∑ k in Finset.range s.length,
      s.getD k 0 * Complex.exp (2 * (Real.pi : ℂ) * Complex.I / (s.length : ℂ)) ^
        (-(n * (k : ℤ)))) / (s.length : ℂ) := by
  unfold coefficient
  rw [range_map_sum]
  congr 1
  refine Finset.sum_congr rfl ?_
  intro k _
  congr 1
  rw [← exp_two_pi_div_zpow]
  congr 1
  push_cast
  ring

theorem chain_exp_zpow (N : ℕ) (n : ℤ) (k0 : ℕ) :
    Complex.exp ((2 * Real.pi * (n : ℝ) * ((k0 : ℝ) / (N : ℝ)) : ℝ) * Complex.I) =
      Complex.exp (2 * (Real.pi : ℂ) * Complex.I / (N : ℂ)) ^ (n * (k0 : ℤ)) := by
  rw [← exp_two_pi_div_zpow]
  congr 1
  push_cast
  ring

theorem dft_inversion (s : List ℂ) (k0 : ℕ) (hk : k0 < s.length) :
    ((rawCoefficients s).map (fun nc => nc.2 *
      Complex.exp ((2 * Real.pi * (nc.1 : ℝ) * ((k0 : ℝ) / (s.length : ℝ)) : ℝ) *
        Complex.I))).sum = s.getD k0 0 := by
  have hN : 0 < s.length := lt_of_le_of_lt (Nat.zero_le _) hk
  have hNC : (s.length : ℂ) ≠ 0 := Nat.cast_ne_zero.mpr hN.ne'
  rw [rawCoefficients_map_sum]
  dsimp only
  have hterm : ∀ j : ℕ,
      coefficient s (Int.fdiv (-(s.length : ℤ)) 2 + (j : ℤ)) *
        Complex.exp ((2 * Real.pi * ((Int.fdiv (-(s.length : ℤ)) 2 + (j : ℤ) : ℤ) : ℝ) *
          ((k0 : ℝ) / (s.length : ℝ)) : ℝ) * Complex.I) =
      (∑ k in Finset.range s.length, s.getD k 0 *
        Complex.exp (2 * (Real.pi : ℂ) * Complex.I / (s.length : ℂ)) ^
          ((Int.fdiv (-(s.length : ℤ)) 2 + (j : ℤ)) * ((k0 : ℤ) - (k : ℤ)))) /
        (s.length : ℂ) := by
    intro j
    rw [coefficient_zpow, chain_exp_zpow, div_mul_eq_mul_div, Finset.sum_mul]
    congr 1
    refine Finset.sum_congr rfl ?_
    intro k _
    rw [mul_assoc, ← zpow_add₀ (Complex.exp_ne_zero _)]
    congr 2
    ring
  simp only [hterm]
  rw [← Finset.sum_div, Finset.sum_comm]
  have hinner : ∀ k ∈ Finset.range s.length,
      (∑ j in Finset.range s.length, s.getD k 0 *
        Complex.exp (2 * (Real.pi : ℂ) * Complex.I / (s.length : ℂ)) ^
          ((Int.fdiv (-(s.length : ℤ)) 2 + (j : ℤ)) * ((k0 : ℤ) - (k : ℤ)))) =
      s.getD k 0 * (if ((k0 : ℤ) - (k : ℤ)) = 0 then (s.length : ℂ) else 0) := by
    intro k hkmem
    rw [← Finset.mul_sum]
    congr 1
    refine root_geom_sum s.length hN _ _ ?_
    have := Finset.mem_range.mp hkmem
    omega
  rw [Finset.sum_congr rfl hinner]
  rw [Finset.sum_eq_single_of_mem k0 (Finset.mem_range.mpr hk) ?_]
  · rw [if_pos (sub_self _), mul_div_assoc, div_self hNC, mul_one]
  · intro b _ hbne
    rw [if_neg ?_, mul_zero]
    intro hzero
    apply hbne
    omega

/-- C4: reconstructing with the full unfiltered coefficient table at the
exact sample instants t_k = k/N reproduces the recorded points exactly
(real arithmetic; the floating-point tolerance of the claim is 0 here). -/
theorem dft_roundtrip (pts : List DrawPoint) (h2 : 2 ≤ pts.length) (k : ℕ)
    (hk : k < pts.length) :
    calculate_point (rawCoefficients (complex_points pts)) ((k : ℝ) / (pts.length : ℝ)) =
      (pts.get ⟨k, hk⟩).pos := by
  clear h2
  have hlen : (complex_points pts).length = pts.length := List.length_map _ _
  have hk' : k < (complex_points pts).length := by rw [hlen]; exact hk
  rw [calculate_point_complex,
    show ((k : ℝ) / (pts.length : ℝ)) = ((k : ℝ) / ((complex_points pts).length : ℝ)) from
      by rw [hlen],
    dft_inversion (complex_points pts) k hk']
  have hgd : (complex_points pts).getD k 0 =
      Complex.mk ((pts.get ⟨k, hk⟩).pos.1 - WIDTH / 2)
        ((pts.get ⟨k, hk⟩).pos.2 - HEIGHT / 2) := by
    unfold complex_points
    rw [List.getD_eq_getElem _ _ (by rw [List.length_map]; exact hk), List.getElem_map]
    rfl
  rw [hgd]
  refine Prod.ext ?_ ?_ <;> dsimp only <;> ring

/-- Witness for C4 at a concrete three-point trace and sample index 1. -/
theorem dft_roundtrip_witness :
    2 ≤ pts3.length ∧
    calculate_point (rawCoefficients (complex_points pts3))
        (((1 : ℕ) : ℝ) / (pts3.length : ℝ)) =
      (pts3.get ⟨1, by decide⟩).pos :=
  ⟨by decide, dft_roundtrip pts3 (by decide) 1 (by decide)⟩

/-! Replay-all sequencing -/

theorem animate_core (p : Path) (speed : ℝ) :
    (p.animate speed).raw_points = p.raw_points ∧
    (p.animate speed).epicycles = p.epicycles := by
  unfold Path.animate
  by_cases h1 : p.state = PathState.animating
  · rw [if_pos h1]
    dsimp only
    by_cases h2 : 1 ≤ p.time + 1 / (p.raw_points.length : ℝ) * speed
    · rw [if_pos h2]
      exact ⟨rfl, rfl⟩
    · rw [if_neg h2]
      exact ⟨rfl, rfl⟩
  · rw [if_neg h1]
    exact ⟨rfl, rfl⟩

theorem animate_core_eq (p : Path) (speed : ℝ) : (p.animate speed).core = p.core := by
  unfold Path.core
  rw [(animate_core p speed).1, (animate_core p speed).2]

theorem animateFrames_core (speed : ℝ) :
    ∀ (n : ℕ) (p : Path), (animateFrames speed n p).core = p.core := by
  intro n
  induction n with
  | zero => intro p; rfl
  | succ m ih =>
    intro p
    show (animateFrames speed m (p.animate speed)).core = p.core
    rw [ih (p.animate speed), animate_core_eq]

theorem reset_core (p : Path) : (resetForAnimation p).core = p.core := rfl

theorem tick_not_complete (d : FourierDrawing) (q : Path) (hp : d.paths = [q])
    (h : (q.animate d.animation_speed).state ≠ PathState.complete) :
    tick d = { d with paths := [q.animate d.animation_speed] } := by
  unfold tick animatePhase sequentialPhase
  rw [hp]
  simp only [List.map]
  by_cases hall : d.animating_all
  · rw [if_pos hall, if_neg h]
  · rw [if_neg hall]

theorem tick_complete_cons (d : FourierDrawing) (q r : Path) (rs : List Path)
    (hp : d.paths = [q]) (hall : d.animating_all = true)
    (hrem : d.remaining_paths = r :: rs)
    (h : (q.animate d.animation_speed).state = PathState.complete) :
    tick d = { d with paths := [resetForAnimation r],
                      completed_paths := d.completed_paths ++ [q.animate d.animation_speed],
                      remaining_paths := rs } := by
  unfold tick animatePhase sequentialPhase
  rw [hp]
  simp only [List.map]
  rw [if_pos hall, if_pos h, hrem]

theorem tick_complete_nil (d : FourierDrawing) (q : Path)
    (hp : d.paths = [q]) (hall : d.animating_all = true)
    (hrem : d.remaining_paths = [])
    (h : (q.animate d.animation_speed).state = PathState.complete) :
    tick d = { d with paths := d.completed_paths ++ [q.animate d.animation_speed],
                      completed_paths := [], animating_all := false } := by
  unfold tick animatePhase sequentialPhase
  rw [hp]
  simp only [List.map]
  rw [if_pos hall, if_pos h, hrem]

theorem tick_iterate_anim (d : FourierDrawing) (q : Path) (hp : d.paths = [q]) (m : ℕ)
    (hanim : ∀ f : ℕ, f ≤ m →
      (animateFrames d.animation_speed f q).state = PathState.animating) :
    ∀ f : ℕ, f ≤ m →
      tick^[f] d = { d with paths := [animateFrames d.animation_speed f q] } := by
  intro f
  induction f with
  | zero =>
    intro _
    show d = { d with paths := [q] }
    rw [← hp]
  | succ g ihf =>
    intro hle
    rw [Function.iterate_succ_apply', ihf (by omega)]
    have hst : ((animateFrames d.animation_speed g q).animate d.animation_speed).state =
        PathState.animating := by
      rw [← animateFrames_succ_right]
      exact hanim (g + 1) hle
    have := tick_not_complete { d with paths := [animateFrames d.animation_speed g q] }
      (animateFrames d.animation_speed g q) rfl
      (by rw [hst]; exact fun hc => PathState.noConfusion hc)
    rw [this, animateFrames_succ_right]

theorem exists_completion (q : Path) (speed : ℝ) (hq : q.state = PathState.animating)
    (ht0 : q.time = 0) (hraw : q.raw_points ≠ []) (hs : 0 < speed) :
    ∃ m : ℕ, 0 < m ∧
      (∀ f : ℕ, f < m → (animateFrames speed f q).state = PathState.animating) ∧
      (animateFrames speed m q).state = PathState.complete := by
  classical
  have hlen : 0 < q.raw_points.length := List.length_pos.mpr hraw
  have hinc : 0 < 1 / (q.raw_points.length : ℝ) * speed := by
    apply mul_pos _ hs
    apply div_pos one_pos
    exact_mod_cast hlen
  have hex : ∃ n : ℕ, 1 ≤ ((n : ℝ) + 1) * (1 / (q.raw_points.length : ℝ) * speed) := by
    obtain ⟨n, hn⟩ := exists_nat_ge (1 / (1 / (q.raw_points.length : ℝ) * speed))
    refine ⟨n, ?_⟩
    rw [div_le_iff hinc] at hn
    nlinarith
  refine ⟨Nat.find hex + 1, Nat.succ_pos _, ?_, ?_⟩
  · intro f hf
    have hmin : ∀ i : ℕ, i < f →
        q.time + ((i : ℝ) + 1) * (1 / (q.raw_points.length : ℝ) * speed) < 1 := by
      intro i hi
      have : ¬ (1 ≤ ((i : ℝ) + 1) * (1 / (q.raw_points.length : ℝ) * speed)) :=
        Nat.find_min hex (by omega)
      rw [ht0, zero_add]
      linarith [not_le.mp this]
    exact (animateFrames_time speed f q hq hmin).1
  · have hfr := animateFrames_time speed (Nat.find hex) q hq ?_
    · rw [animateFrames_succ_right]
      have hge : 1 ≤ (animateFrames speed (Nat.find hex) q).time +
          1 / ((animateFrames speed (Nat.find hex) q).raw_points.length : ℝ) * speed := by
        rw [hfr.2.1, hfr.2.2.1, ht0, zero_add]
        have := Nat.find_spec hex
        linarith [this]
      rw [animate_of_ge hfr.1 hge]
    · intro i hi
      have : ¬ (1 ≤ ((i : ℝ) + 1) * (1 / (q.raw_points.length : ℝ) * speed)) :=
        Nat.find_min hex hi
      rw [ht0, zero_add]
      linarith [not_le.mp this]

theorem replay_run (rs : List Path) :
    ∀ (d : FourierDrawing) (q : Path),
      d.paths = [q] →
      d.remaining_paths = rs →
      d.animating_all = true →
      q.state = PathState.animating → q.time = 0 → q.raw_points ≠ [] →
      (∀ r ∈ rs, r.state ≠ PathState.animating) →
      (∀ r ∈ rs, r.raw_points ≠ []) →
      (∀ c ∈ d.completed_paths, c.state = PathState.complete) →
      0 < d.animation_speed →
      ∃ F : ℕ, 0 < F ∧
        (∀ f : ℕ, f < F → oneAnimating (tick^[f] d) ∧
          (tick^[f] d).completed_paths.map Path.core ++
            (tick^[f] d).paths.map Path.core ++
            (tick^[f] d).remaining_paths.map Path.core =
          d.completed_paths.map Path.core ++ q.core :: rs.map Path.core) ∧
        (tick^[F] d).animating_all = false ∧
        (tick^[F] d).paths.map Path.core =
          d.completed_paths.map Path.core ++ q.core :: rs.map Path.core ∧
        (∀ p ∈ (tick^[F] d).paths, p.state = PathState.complete) ∧
        (tick^[F] d).completed_paths = [] := by
  induction rs with
  | nil =>
    intro d q hp hrem hall hqs hqt hqraw _ _ hcompl hs
    obtain ⟨m, hm0, hanim, hcomp⟩ := exists_completion q d.animation_speed hqs hqt hqraw hs
    have hT := tick_iterate_anim d q hp (m - 1) (fun f hf => hanim f (by omega))
    have hTm : tick^[m] d =
        { d with paths := d.completed_paths ++ [animateFrames d.animation_speed m q],
                 completed_paths := [], animating_all := false } := by
      have h1 : m = (m - 1) + 1 := by omega
      rw [h1, Function.iterate_succ_apply', hT (m - 1) le_rfl]
      have hstc : ((animateFrames d.animation_speed (m - 1) q).animate
          d.animation_speed).state = PathState.complete := by
        rw [← animateFrames_succ_right, ← h1]
        exact hcomp
      rw [tick_complete_nil { d with paths := [animateFrames d.animation_speed (m - 1) q] }
        (animateFrames d.animation_speed (m - 1) q) rfl hall hrem hstc,
        ← animateFrames_succ_right, ← h1]
    refine ⟨m, hm0, ?_, ?_, ?_, ?_, ?_⟩
    · intro f hf
      constructor
      · rw [hT f (by omega)]
        unfold oneAnimating
        refine ⟨hall, ⟨animateFrames d.animation_speed f q, rfl, hanim f hf⟩, ?_, ?_⟩
        · intro x hx
          have hx' : x ∈ d.remaining_paths := hx
          rw [hrem] at hx'
          exact absurd hx' (List.not_mem_nil x)
        · intro c hc
          have hc' : c ∈ d.completed_paths := hc
          rw [hcompl c hc']
          decide
      · rw [hT f (by omega)]
        dsimp only
        rw [hrem]
        simp [animateFrames_core]
    · rw [hTm]
    · rw [hTm]
      dsimp only
      rw [List.map_append]
      simp [animateFrames_core]
    · intro p hpm
      rw [hTm] at hpm
      have hpm' : p ∈ d.completed_paths ++ [animateFrames d.animation_speed m q] := hpm
      rcases List.mem_append.mp hpm' with hpm'' | hpm''
      · exact hcompl p hpm''
      · rw [List.mem_singleton.mp hpm'']
        exact hcomp
    · rw [hTm]
  | cons r rs' ih =>
    intro d q hp hrem hall hqs hqt hqraw hrsstate hrsraw hcompl hs
    obtain ⟨m, hm0, hanim, hcomp⟩ := exists_completion q d.animation_speed hqs hqt hqraw hs
    have hT := tick_iterate_anim d q hp (m - 1) (fun f hf => hanim f (by omega))
    have hTm : tick^[m] d =
        { d with paths := [resetForAnimation r],
                 completed_paths := d.completed_paths ++ [animateFrames d.animation_speed m q],
                 remaining_paths := rs' } := by
      have h1 : m = (m - 1) + 1 := by omega
      rw [h1, Function.iterate_succ_apply', hT (m - 1) le_rfl]
      have hstc : ((animateFrames d.animation_speed (m - 1) q).animate
          d.animation_speed).state = PathState.complete := by
        rw [← animateFrames_succ_right, ← h1]
        exact hcomp
      rw [tick_complete_cons { d with paths := [animateFrames d.animation_speed (m - 1) q] }
        (animateFrames d.animation_speed (m - 1) q) r rs' rfl hall hrem hstc,
        ← animateFrames_succ_right, ← h1]
    have hin := ih
      { d with paths := [resetForAnimation r],
               completed_paths := d.completed_paths ++
                 [animateFrames d.animation_speed m q],
               remaining_paths := rs' } (resetForAnimation r) rfl rfl hall rfl rfl
      (hrsraw r (List.mem_cons_self r rs'))
      (fun x hx => hrsstate x (List.mem_cons_of_mem _ hx))
      (fun x hx => hrsraw x (List.mem_cons_of_mem _ hx))
      ?_ hs
    · obtain ⟨F', hF'0, hinv', hfin1, hfin2, hfin3, hfin4⟩ := hin
      have key : ∀ g : ℕ, tick^[g + m] d = tick^[g]
          { d with paths := [resetForAnimation r],
                   completed_paths := d.completed_paths ++
                     [animateFrames d.animation_speed m q],
                   remaining_paths := rs' } := by
        intro g
        rw [Function.iterate_add_apply, hTm]
      have horder :
          (d.completed_paths ++ [animateFrames d.animation_speed m q]).map Path.core ++
            (resetForAnimation r).core :: rs'.map Path.core =
          d.completed_paths.map Path.core ++ q.core :: (r :: rs').map Path.core := by
        rw [List.map_append, List.append_assoc, reset_core]
        simp [animateFrames_core]
      refine ⟨F' + m, by omega, ?_, ?_, ?_, ?_, ?_⟩
      · intro f hf
        by_cases hfm : f < m
        · constructor
          · rw [hT f (by omega)]
            unfold oneAnimating
            refine ⟨hall, ⟨animateFrames d.animation_speed f q, rfl, hanim f hfm⟩, ?_, ?_⟩
            · intro x hx
              have hx' : x ∈ d.remaining_paths := hx
              rw [hrem] at hx'
              exact hrsstate x hx'
            · intro c hc
              have hc' : c ∈ d.completed_paths := hc
              rw [hcompl c hc']
              decide
          · rw [hT f (by omega)]
            dsimp only
            rw [hrem]
            simp [animateFrames_core]
        · obtain ⟨g, rfl⟩ : ∃ g, f = g + m := ⟨f - m, by omega⟩
          rw [key g]
          obtain ⟨ho, hor⟩ := hinv' g (by omega)
          refine ⟨ho, ?_⟩
          rw [hor]
          exact horder
      · rw [key F']
        exact hfin1
      · rw [key F', hfin2]
        exact horder
      · intro p hpm
        rw [key F'] at hpm
        exact hfin3 p hpm
      · rw [key F']
        exact hfin4
    · intro c hc
      have hc' : c ∈ d.completed_paths ++ [animateFrames d.animation_speed m q] := hc
      rcases List.mem_append.mp hc' with hcm | hcm
      · exact hcompl c hcm
      · rw [List.mem_singleton.mp hcm]
        exact hcomp

/-- C6: starting from stored completed paths, replay-all makes them animate
strictly in their original order, with exactly one path animating at every
frame while replay mode is on, in FIFO order over the snapshot; when replay
ends, the same paths (same recorded points and coefficients, in the original
order) are the stored collection again, all complete, and the auxiliary
completed list is empty. -/
theorem replay_all_sequential (d : FourierDrawing)
    (hne : d.paths ≠ [])
    (hc : ∀ p ∈ d.paths, p.state = PathState.complete)
    (hraw : ∀ p ∈ d.paths, p.raw_points ≠ [])
    (hs : 0 < d.animation_speed) :
    ∃ F : ℕ, 0 < F ∧
      (∀ f : ℕ, f < F → oneAnimating (tick^[f] (replay_all d)) ∧
        (tick^[f] (replay_all d)).completed_paths.map Path.core ++
          (tick^[f] (replay_all d)).paths.map Path.core ++
          (tick^[f] (replay_all d)).remaining_paths.map Path.core =
        d.paths.map Path.core) ∧
      (tick^[F] (replay_all d)).animating_all = false ∧
      (tick^[F] (replay_all d)).paths.map Path.core = d.paths.map Path.core ∧
      (∀ p ∈ (tick^[F] (replay_all d)).paths, p.state = PathState.complete) ∧
      (tick^[F] (replay_all d)).completed_paths = [] := by
  cases hpd : d.paths with
  | nil => exact absurd hpd hne
  | cons p0 rest =>
    have hre : replay_all d =
        { d with paths := [resetForAnimation p0],
                 completed_paths := [], animating_all := true,
                 current_animation_index := 0,
                 remaining_paths := rest } := by
      unfold replay_all
      rw [hpd]
    rw [hre]
    obtain ⟨F, hF0, hinv, h1, h2, h3, h4⟩ :=
      replay_run rest
        { d with paths := [resetForAnimation p0],
                 completed_paths := [], animating_all := true,
                 current_animation_index := 0,
                 remaining_paths := rest } (resetForAnimation p0) rfl rfl rfl rfl rfl
        (hraw p0 (by rw [hpd]; exact List.mem_cons_self _ _))
        (fun x hx => by
          rw [hc x (by rw [hpd]; exact List.mem_cons_of_mem _ hx)]
          decide)
        (fun x hx => hraw x (by rw [hpd]; exact List.mem_cons_of_mem _ hx))
        (fun c hcm => absurd hcm (List.not_mem_nil c)) hs
    have hord : ([] : List Path).map Path.core ++
        (resetForAnimation p0).core :: rest.map Path.core =
        (p0 :: rest).map Path.core := by
      rw [reset_core]
      simp
    refine ⟨F, hF0, ?_, h1, ?_, h3, h4⟩
    · intro f hf
      obtain ⟨ho, hor⟩ := hinv f hf
      refine ⟨ho, ?_⟩
      rw [hor]
      exact hord
    · rw [h2]
      exact hord

/-- Witness for C6 at a concrete state with one completed two-point path. -/
theorem replay_all_sequential_witness :
    wDrawing.paths ≠ [] ∧
    (∃ F : ℕ, 0 < F ∧
      (∀ f : ℕ, f < F → oneAnimating (tick^[f] (replay_all wDrawing)) ∧
        (tick^[f] (replay_all wDrawing)).completed_paths.map Path.core ++
          (tick^[f] (replay_all wDrawing)).paths.map Path.core ++
          (tick^[f] (replay_all wDrawing)).remaining_paths.map Path.core =
        wDrawing.paths.map Path.core) ∧
      (tick^[F] (replay_all wDrawing)).animating_all = false ∧
      (tick^[F] (replay_all wDrawing)).paths.map Path.core =
        wDrawing.paths.map Path.core ∧
      (∀ p ∈ (tick^[F] (replay_all wDrawing)).paths, p.state = PathState.complete) ∧
      (tick^[F] (replay_all wDrawing)).completed_paths = []) :=
  ⟨by simp [wDrawing],
   replay_all_sequential wDrawing (by simp [wDrawing])
     (by intro p hp
         simp only [wDrawing, List.mem_singleton] at hp
         subst hp
         rfl)
     (by intro p hp
         simp only [wDrawing, List.mem_singleton] at hp
         subst hp
         simp [wPathDone])
     (by norm_num [wDrawing])⟩

end Main

end
